import Mathlib

/-!
# sccp: prefixing the tags of a swagger-combine configuration

A shallow embedding of `main.go`.  The program loads a swagger-combine
configuration, retrieves the OpenAPI document of every API entry, prefixes
the tags of the document with the document's title and stores the result
as rename/add instructions in the entry, and finally writes the
configuration back.

Conventions of the embedding.

* A Go `map[string]string` is an association list (`GoMap`) read with
  `mapGet` (first match) and written with `mapSet` (overwrite the entry of
  the key, or add one).  A `nil` map or slice is `none`.
* A Go map that is only ranged over (`OAS.Paths`, `Path`) is the list of its
  entries in the order in which the `range` statement visits them; every
  statement below holds for every such order.
* `[]*API` is the list of the structs the pointers refer to; the loop
  updates each struct in place, which is the list of updated structs.  The
  decoders allocate one struct per element, so no two elements share one; a
  `null` element, which is no API entry, is not represented.
* A Go string is a Lean `String`.
* The operating system, the network and the two decoding libraries are the
  fields of `World`.  Text printed on standard output is not part of the
  model.
-/

namespace Sccp

/-! ## Maps -/

/-- A Go `map[string]string`, as the list of its entries. -/
abbrev GoMap := List (String × String)

/-- Reading `m[k]`: the value stored for `k`, if any. -/
def mapGet : GoMap → String → Option String
  | [], _ => none
  | (k', v) :: rest, k => if k' = k then some v else mapGet rest k

/-- Writing `m[k] = v`: the entry of `k` is overwritten, or a new one is added. -/
def mapSet : GoMap → String → String → GoMap
  | [], k, v => [(k, v)]
  | (k', v') :: rest, k, v => if k' = k then (k, v) :: rest else (k', v') :: mapSet rest k v

/-- The keys of a map. -/
def mapKeys (m : GoMap) : List String := m.map Prod.fst

/-! ## The configuration and the OpenAPI document (`main.go`, lines 27-66) -/

/-- The `info` block: title and version. -/
structure Info where
  Title : String
  Version : String
  deriving DecidableEq, Repr

/-- The tag-edit block of an API entry: rename map and add-list, each possibly `nil`. -/
structure Tag where
  Rename : Option GoMap
  Add : Option (List String)
  deriving DecidableEq, Repr

/-- One API entry: URL, optional tag-edit block (`*Tag`), optional path overrides. -/
structure API where
  URL : String
  Tags : Option Tag
  Paths : Option GoMap
  deriving DecidableEq, Repr

/-- The swagger-combine configuration. -/
structure Config where
  Swagger : String
  Info : Info
  APIs : List API
  deriving DecidableEq, Repr

/-- An operation; only its tags matter. -/
structure Method where
  Tags : List String
  deriving DecidableEq, Repr

/-- The operations of one path, keyed by HTTP method. -/
abbrev Path := List (String × Method)

/-- An OpenAPI document: the info block and the paths. -/
structure OAS where
  Info : Info
  Paths : List (String × Path)
  deriving DecidableEq, Repr

/-- The value of `var oas OAS` before anything is decoded into it. -/
def OAS.zero : OAS := ⟨⟨"", ""⟩, []⟩

/-- The value of `var config Config` before anything is decoded into it. -/
def Config.zero : Config := ⟨"", ⟨"", ""⟩, []⟩

/-! ## The tag-prefixing step (`main.go`, lines 122-168) -/

/-- Lines 128-135: the three nested loops filling `preTags`. -/
def buildPreTags (pfx : String) (paths : List (String × Path)) : GoMap :=
  paths.foldl
    (fun m p => p.2.foldl
      (fun m method => method.2.Tags.foldl (fun m tag => mapSet m tag (pfx ++ tag)) m) m)
    []

/-- Lines 140-146: make sure the entry has a tag-edit block with a non-nil
add-list and append the default tag. -/
def addDefault (pfx : String) (api : API) : API :=
  let tags : Tag := api.Tags.getD ⟨none, none⟩
  let add : List String := tags.Add.getD []
  { api with Tags := some { tags with Add := some (add ++ [pfx ++ "default"]) } }

/-- Lines 159-167: make sure the entry has a tag-edit block with a non-nil
rename map and store every entry of `preTags` in it. -/
def mergeRename (preTags : GoMap) (api : API) : API :=
  let tags : Tag := api.Tags.getD ⟨none, none⟩
  let rename : GoMap := tags.Rename.getD []
  { api with
    Tags := some { tags with
      Rename := some (preTags.foldl (fun r kv => mapSet r kv.1 kv.2) rename) } }

/-- Lines 122-168: the body of the loop once the document is decoded. -/
def prefixTags (oas : OAS) (api : API) : API :=
  let pfx := oas.Info.Title ++ ": "
  let preTags := buildPreTags pfx oas.Paths
  let api1 := if preTags.length = 0 then addDefault pfx api else api
  if preTags.length ≠ 0 then mergeRename preTags api1 else api1

/-! ## The run (`main.go`, lines 68-187) -/

/-- What `http.Get` followed by `ioutil.ReadAll` gives for one request. -/
inductive GetResult where
  /-- `http.Get` returned an error. -/
  | getErr
  /-- `http.Get` returned a response with this status, whose body could not be read. -/
  | readErr (status : Nat)
  /-- `http.Get` returned a response with this status and this body. -/
  | body (status : Nat) (bytes : String)
  deriving DecidableEq, Repr

/-- What reading the configuration file gives. -/
inductive FileResult where
  /-- `os.Open` returned an error. -/
  | openErr
  /-- `ioutil.ReadAll` returned an error. -/
  | readErr
  /-- The bytes of the file. -/
  | bytes (content : String)
  deriving DecidableEq, Repr

/-- The environment of a run.  The decoders return the value they leave in
the variable they decode into (which starts at its zero value) and whether
they reported an error. -/
structure World where
  /-- The value of `os.Args`. -/
  args : List String
  /-- Opening and reading the file at a path. -/
  readFile : String → FileResult
  /-- Decoding a configuration with `yaml.Unmarshal`. -/
  yamlConfig : String → Config × Bool
  /-- Decoding a configuration with `json.Unmarshal`. -/
  jsonConfig : String → Config × Bool
  /-- The result of the request made for the entry at an index, to a URL. -/
  httpGet : Nat → String → GetResult
  /-- Decoding a document with `yaml.Unmarshal`. -/
  yamlOAS : String → OAS × Bool
  /-- Decoding a document with `json.Unmarshal`. -/
  jsonOAS : String → OAS × Bool
  /-- The result of `json.MarshalIndent`; `none` is an error. -/
  marshalIndent : Config → Option String
  /-- Whether `ioutil.WriteFile` of these bytes under this name succeeds. -/
  writeFile : String → String → Bool

/-- The scan of `path.Ext`, from the last character backwards. -/
def extScan : List Char → List Char → List Char
  | [], _ => []
  | c :: rest, acc =>
    if c = '/' then [] else if c = '.' then c :: acc else extScan rest (c :: acc)

/-- The function `path.Ext` of the Go library: the suffix that starts at the
last dot of the last slash-separated element, empty if there is none. -/
def Ext (path : String) : String := ⟨extScan path.data.reverse []⟩

/-- Lines 104-120: retrieve and decode the document of the entry at index
`n`; `none` is `os.Exit(1)`.  The status of the response is not looked at
and the error of the decoder is dropped. -/
def fetchOAS (w : World) (n : Nat) (url : String) : Option OAS :=
  match w.httpGet n url with
  | .getErr => none
  | .readErr _ => none
  | .body _ bytes =>
    if Ext url = ".yaml" then some (w.yamlOAS bytes).1 else some (w.jsonOAS bytes).1

/-- Lines 100-169: the loop over the entries, from the entry at index `n`;
`none` is `os.Exit(1)`. -/
def processAPIs (w : World) : Nat → List API → Option (List API)
  | _, [] => some []
  | n, api :: rest =>
    match fetchOAS w n api.URL with
    | none => none
    | some oas =>
      match processAPIs w (n + 1) rest with
      | none => none
      | some rest' => some (prefixTags oas api :: rest')

/-- The transform stage: the loop applied to the entries of a configuration. -/
def transform (w : World) (config : Config) : Option Config :=
  match processAPIs w 0 config.APIs with
  | none => none
  | some apis => some { config with APIs := apis }

/-- Lines 78-97: open, read and decode the configuration file; `none` is
`os.Exit(1)`.  The error of the decoder is dropped. -/
def readConfig (w : World) (configFilePath : String) : Option Config :=
  match w.readFile configFilePath with
  | .openErr => none
  | .readErr => none
  | .bytes content =>
    if Ext configFilePath = ".yaml" ∨ Ext configFilePath = ".yml" then
      some (w.yamlConfig content).1
    else
      some (w.jsonConfig content).1

/-- The observable result of a run: the exit status and the call of
`ioutil.WriteFile` that was made, if any (file name and bytes). -/
structure RunResult where
  status : Nat
  wrote : Option (String × String)
  deriving DecidableEq, Repr

/-- Lines 173-187: serialise and write. -/
def writeConfig (w : World) (configFilePath : String) (config : Config) : RunResult :=
  match w.marshalIndent config with
  | none => ⟨1, none⟩
  | some newConfigByte =>
    let name := "combined-config" ++ Ext configFilePath
    if w.writeFile name newConfigByte then ⟨0, some (name, newConfigByte)⟩
    else ⟨1, some (name, newConfigByte)⟩

/-- The whole of `main`: exactly one argument is required (lines 70-74),
then the configuration is loaded, transformed and written. -/
def main (w : World) : RunResult :=
  match w.args with
  | [_, configFilePath] =>
    match readConfig w configFilePath with
    | none => ⟨1, none⟩
    | some config =>
      match transform w config with
      | none => ⟨1, none⟩
      | some config' => writeConfig w configFilePath config'
  | _ => ⟨1, none⟩

/-! ## Vocabulary of the statements -/

/-- The tags of a document: every tag string of every operation of every path. -/
def docTags (oas : OAS) : List String :=
  (oas.Paths.map (fun p => (p.2.map (fun method => method.2.Tags)).flatten)).flatten

/-- The rename map of an entry, empty when the block or the map is `nil`. -/
def renameOf (api : API) : GoMap :=
  match api.Tags with
  | none => []
  | some t => t.Rename.getD []

/-- The add-list of an entry, empty when the block or the list is `nil`. -/
def addOf (api : API) : List String :=
  match api.Tags with
  | none => []
  | some t => t.Add.getD []

/-- The document used for the entry at index `n`: what the decoder selected
by the extension of the URL leaves for the body of the response. -/
def docAt (w : World) (n : Nat) (url : String) : OAS :=
  (fetchOAS w n url).getD OAS.zero

/-- The retrieval for an entry failed: `http.Get` or reading the body
returned an error. -/
def fetchFailed : GetResult → Bool
  | .getErr => true
  | .readErr _ => true
  | .body _ _ => false

/-- The entries after a run in which every retrieval succeeded: each entry,
from index `n` on, updated with its own document. -/
def prefixAll (w : World) : Nat → List API → List API
  | _, [] => []
  | n, api :: rest => prefixTags (docAt w n api.URL) api :: prefixAll w (n + 1) rest

/-! ## Concrete documents, entries and environments -/

/-- A document titled "Pets" whose operations carry the tags a, b, a. -/
def petsDoc : OAS :=
  ⟨⟨"Pets", "1.0"⟩, [("/pets", [("get", ⟨["a", "b"]⟩)]), ("/pets/{id}", [("get", ⟨["a"]⟩)])]⟩

/-- A document titled "Orders" with one path whose operations carry no tag. -/
def ordersDoc : OAS :=
  ⟨⟨"Orders", "2.0"⟩, [("/orders", [("get", ⟨[]⟩), ("post", ⟨[]⟩)])]⟩

/-- An entry without a tag-edit block. -/
def plainEntry : API := ⟨"http://h/pets.json", none, none⟩

/-- An entry that already renames the tags a and x and adds the tag y. -/
def editedEntry : API :=
  ⟨"http://h/pets.json", some ⟨some [("x", "X"), ("a", "old")], some ["y"]⟩,
    some [("/pets", "/p")]⟩

/-- A document with the given title and the single tag "status". -/
def statusDoc (title : String) : OAS :=
  ⟨⟨title, "1.0"⟩, [("/status", [("get", ⟨["status"]⟩)])]⟩

/-- A configuration with two entries, the second with a rename entry of its own. -/
def shopConfig : Config :=
  ⟨"2.0", ⟨"Shop", "1.0"⟩,
    [⟨"http://h/pets.json", none, some [("/pets", "/p")]⟩,
     ⟨"http://h/orders.yaml", some ⟨some [("x", "X")], none⟩, none⟩]⟩

/-- A configuration without entries. -/
def emptyConfig : Config := ⟨"2.0", ⟨"Shop", "1.0"⟩, []⟩

/-- A run on `c.json`, which decodes to `shopConfig`; both documents are
delivered with status 200 and decoded without error, "Pets" from JSON and
"Orders" from YAML. -/
def shopWorld : World where
  args := ["sccp", "c.json"]
  readFile := fun _ => .bytes "shop"
  yamlConfig := fun _ => (Config.zero, true)
  jsonConfig := fun _ => (shopConfig, false)
  httpGet := fun n _ => if n = 0 then .body 200 "pets" else .body 200 "orders"
  yamlOAS := fun b => if b = "orders" then (statusDoc "Orders", false) else (OAS.zero, true)
  jsonOAS := fun b => if b = "pets" then (statusDoc "Pets", false) else (OAS.zero, true)
  marshalIndent := fun _ => some "{}"
  writeFile := fun _ _ => true

/-- As `shopWorld`, but the request of the second entry fails in `http.Get`. -/
def unreachableWorld : World :=
  { shopWorld with httpGet := fun n _ => if n = 0 then .body 200 "pets" else .getErr }

/-- As `shopWorld`, but both requests are answered with status 404; the
bodies are decoded without error. -/
def notFoundWorld : World :=
  { shopWorld with httpGet := fun n _ => if n = 0 then .body 404 "pets" else .body 404 "orders" }

/-- As `shopWorld`, but the body of the first response is rejected by the
JSON decoder, which leaves the document at its zero value. -/
def garbledWorld : World :=
  { shopWorld with httpGet := fun n _ => if n = 0 then .body 200 "<html>" else .body 200 "orders" }

/-- As `shopWorld`, but the configuration file decodes to `emptyConfig`. -/
def emptyWorld : World :=
  { shopWorld with jsonConfig := fun _ => (emptyConfig, false) }

/-- The response has a status outside 200-299. -/
def nonSuccess : GetResult → Bool
  | .getErr => false
  | .readErr status => decide (status < 200 ∨ 300 ≤ status)
  | .body status _ => decide (status < 200 ∨ 300 ≤ status)

/-- The decoder selected by the extension of the URL reported an error for
the body of the response. -/
def parseFailed (w : World) (url : String) : GetResult → Bool
  | .getErr => false
  | .readErr _ => false
  | .body _ bytes => if Ext url = ".yaml" then (w.yamlOAS bytes).2 else (w.jsonOAS bytes).2

/-! ## Lemmas on maps -/

theorem mapGet_mapSet (m : GoMap) (k v k' : String) :
    mapGet (mapSet m k v) k' = if k = k' then some v else mapGet m k' := by
  induction m with
  | nil => simp [mapSet, mapGet]
  | cons e rest ih =>
    obtain ⟨a, b⟩ := e
    by_cases h : a = k
    · subst h
      by_cases h' : a = k' <;> simp [mapSet, mapGet, h']
    · by_cases h' : k = k'
      · subst h'
        simp [mapSet, mapGet, h, ih]
      · by_cases h'' : a = k'
        · subst h''
          simp [mapSet, mapGet, h, h']
        · simp [mapSet, mapGet, h, h', h'', ih]

theorem mapSet_eq_self (m : GoMap) (k v : String) (h : mapGet m k = some v) :
    mapSet m k v = m := by
  induction m with
  | nil => simp [mapGet] at h
  | cons e rest ih =>
    obtain ⟨a, b⟩ := e
    by_cases ha : a = k
    · subst ha
      simp [mapGet] at h
      simp [mapSet, h]
    · simp [mapGet, ha] at h
      simp [mapSet, ha, ih h]

theorem mem_mapKeys_iff (m : GoMap) (k : String) :
    k ∈ mapKeys m ↔ mapGet m k ≠ none := by
  induction m with
  | nil => simp [mapKeys, mapGet]
  | cons e rest ih =>
    obtain ⟨a, b⟩ := e
    by_cases ha : a = k
    · simp [mapKeys, mapGet, ha]
    · have : k ∈ mapKeys ((a, b) :: rest) ↔ k ∈ mapKeys rest := by
        simp [mapKeys, ha, Ne.symm ha]
      rw [this, ih]
      simp [mapGet, ha]

theorem mapKeys_mapSet (m : GoMap) (k v : String) :
    mapKeys (mapSet m k v) = if k ∈ mapKeys m then mapKeys m else mapKeys m ++ [k] := by
  induction m with
  | nil => simp [mapSet, mapKeys]
  | cons e rest ih =>
    obtain ⟨a, b⟩ := e
    by_cases ha : a = k
    · subst ha
      simp [mapSet, mapKeys]
    · have e1 : mapKeys (mapSet ((a, b) :: rest) k v) = a :: mapKeys (mapSet rest k v) := by
        simp [mapSet, ha, mapKeys]
      rw [e1, ih]
      by_cases hk : k ∈ mapKeys rest
      · have : k ∈ mapKeys ((a, b) :: rest) := by
          simp only [mapKeys, List.map_cons, List.mem_cons]
          exact Or.inr hk
        rw [if_pos hk, if_pos this]
        simp [mapKeys]
      · have : ¬ k ∈ mapKeys ((a, b) :: rest) := by
          simp [mapKeys] at hk ⊢
          exact ⟨Ne.symm ha, hk⟩
        rw [if_neg hk, if_neg this]
        simp [mapKeys]

theorem nodup_mapKeys_mapSet (m : GoMap) (k v : String) (h : (mapKeys m).Nodup) :
    (mapKeys (mapSet m k v)).Nodup := by
  rw [mapKeys_mapSet]
  by_cases hk : k ∈ mapKeys m
  · simpa [hk] using h
  · rw [if_neg hk]
    exact List.Nodup.append h (List.nodup_singleton k) (by simpa using hk)

theorem mapGet_of_mem (m : GoMap) (k v : String) (hn : (mapKeys m).Nodup) (h : (k, v) ∈ m) :
    mapGet m k = some v := by
  induction m with
  | nil => simp at h
  | cons e rest ih =>
    obtain ⟨a, b⟩ := e
    simp only [mapKeys, List.map_cons, List.nodup_cons] at hn
    rcases List.mem_cons.mp h with h1 | h1
    · cases h1
      simp [mapGet]
    · have hk : k ∈ rest.map Prod.fst := List.mem_map.mpr ⟨(k, v), h1, rfl⟩
      have hne : a ≠ k := fun e => hn.1 (e ▸ hk)
      simp only [mapGet, if_neg hne]
      exact ih hn.2 h1

theorem mem_of_mapGet (m : GoMap) (k v : String) (h : mapGet m k = some v) : (k, v) ∈ m := by
  induction m with
  | nil => simp [mapGet] at h
  | cons e rest ih =>
    obtain ⟨a, b⟩ := e
    by_cases ha : a = k
    · subst ha
      simp [mapGet] at h
      simp [h]
    · simp only [mapGet, if_neg ha] at h
      exact List.mem_cons_of_mem _ (ih h)

/-! ## Lemmas on the loops of the tag-prefixing step -/

theorem mapGet_foldl_tags (pfx : String) (ts : List String) (m : GoMap) (k : String) :
    mapGet (ts.foldl (fun m tag => mapSet m tag (pfx ++ tag)) m) k
      = if k ∈ ts then some (pfx ++ k) else mapGet m k := by
  induction ts generalizing m with
  | nil => simp
  | cons t ts ih =>
    rw [List.foldl_cons, ih, mapGet_mapSet]
    by_cases h1 : k ∈ ts
    · simp [h1]
    · by_cases h2 : t = k
      · subst h2
        simp
      · simp [h1, h2, Ne.symm h2]

theorem nodup_foldl_tags (pfx : String) (ts : List String) (m : GoMap)
    (h : (mapKeys m).Nodup) :
    (mapKeys (ts.foldl (fun m tag => mapSet m tag (pfx ++ tag)) m)).Nodup := by
  induction ts generalizing m with
  | nil => simpa using h
  | cons t ts ih =>
    rw [List.foldl_cons]
    exact ih _ (nodup_mapKeys_mapSet m t _ h)

theorem foldl_flatten_eq {α β : Type} (f : β → α → β) (L : List (List α)) (b : β) :
    L.flatten.foldl f b = L.foldl (fun b l => l.foldl f b) b := by
  induction L generalizing b with
  | nil => rfl
  | cons l L ih => simp [List.foldl_append, ih]

theorem buildPreTags_eq (pfx : String) (oas : OAS) :
    buildPreTags pfx oas.Paths
      = (docTags oas).foldl (fun m tag => mapSet m tag (pfx ++ tag)) [] := by
  unfold buildPreTags docTags
  rw [foldl_flatten_eq, List.foldl_map]
  congr 1
  funext m p
  rw [foldl_flatten_eq, List.foldl_map]

theorem mapGet_buildPreTags (pfx : String) (oas : OAS) (k : String) :
    mapGet (buildPreTags pfx oas.Paths) k
      = if k ∈ docTags oas then some (pfx ++ k) else none := by
  rw [buildPreTags_eq, mapGet_foldl_tags]
  simp [mapGet]

theorem nodup_buildPreTags (pfx : String) (oas : OAS) :
    (mapKeys (buildPreTags pfx oas.Paths)).Nodup := by
  rw [buildPreTags_eq]
  exact nodup_foldl_tags pfx _ [] (by simp [mapKeys])

theorem mem_keys_buildPreTags (pfx : String) (oas : OAS) (k : String) :
    k ∈ mapKeys (buildPreTags pfx oas.Paths) ↔ k ∈ docTags oas := by
  rw [mem_mapKeys_iff, mapGet_buildPreTags]
  by_cases h : k ∈ docTags oas <;> simp [h]

theorem mem_buildPreTags (pfx : String) (oas : OAS) (kv : String × String)
    (h : kv ∈ buildPreTags pfx oas.Paths) : kv.2 = pfx ++ kv.1 := by
  have h1 := mapGet_of_mem _ kv.1 kv.2 (nodup_buildPreTags pfx oas) h
  rw [mapGet_buildPreTags] at h1
  by_cases hk : kv.1 ∈ docTags oas
  · rw [if_pos hk] at h1
    exact (Option.some.inj h1).symm
  · rw [if_neg hk] at h1
    cases h1

theorem length_buildPreTags (pfx : String) (oas : OAS) :
    (buildPreTags pfx oas.Paths).length = 0 ↔ docTags oas = [] := by
  constructor
  · intro h
    have h0 : buildPreTags pfx oas.Paths = [] := List.length_eq_zero.mp h
    apply List.eq_nil_iff_forall_not_mem.mpr
    intro k hk
    have := (mem_keys_buildPreTags pfx oas k).mpr hk
    rw [h0] at this
    simp [mapKeys] at this
  · intro h
    rw [buildPreTags_eq, h]
    rfl

theorem mapGet_foldl_merge (f : String → String) (p : GoMap) (r : GoMap) (k : String)
    (hp : ∀ kv ∈ p, kv.2 = f kv.1) :
    mapGet (p.foldl (fun r kv => mapSet r kv.1 kv.2) r) k
      = if k ∈ mapKeys p then some (f k) else mapGet r k := by
  induction p generalizing r with
  | nil => simp [mapKeys]
  | cons e p ih =>
    obtain ⟨a, b⟩ := e
    have hb : b = f a := hp (a, b) (List.mem_cons_self _ _)
    rw [List.foldl_cons, ih _ (fun kv h => hp kv (List.mem_cons_of_mem _ h)), mapGet_mapSet]
    by_cases h1 : k ∈ mapKeys p
    · have : k ∈ mapKeys ((a, b) :: p) := by
        simp only [mapKeys, List.map_cons, List.mem_cons]
        exact Or.inr h1
      rw [if_pos h1, if_pos this]
    · by_cases h2 : a = k
      · subst h2
        simp [mapKeys, hb]
      · have : ¬ k ∈ mapKeys ((a, b) :: p) := by
          simp only [mapKeys, List.map_cons, List.mem_cons, not_or]
          exact ⟨Ne.symm h2, h1⟩
        rw [if_neg h1, if_neg this]
        simp [h2]

theorem nodup_foldl_merge (p : GoMap) (r : GoMap) (h : (mapKeys r).Nodup) :
    (mapKeys (p.foldl (fun r kv => mapSet r kv.1 kv.2) r)).Nodup := by
  induction p generalizing r with
  | nil => simpa using h
  | cons e p ih =>
    rw [List.foldl_cons]
    exact ih _ (nodup_mapKeys_mapSet r _ _ h)

theorem foldl_merge_eq_self (p : GoMap) (r : GoMap)
    (h : ∀ kv ∈ p, mapGet r kv.1 = some kv.2) :
    p.foldl (fun r kv => mapSet r kv.1 kv.2) r = r := by
  induction p with
  | nil => rfl
  | cons e p ih =>
    rw [List.foldl_cons, mapSet_eq_self r e.1 e.2 (h e (List.mem_cons_self _ _))]
    exact ih (fun kv hkv => h kv (List.mem_cons_of_mem _ hkv))

/-! ## The two branches of the step -/

theorem prefixTags_of_no_tags (oas : OAS) (api : API) (h : docTags oas = []) :
    prefixTags oas api = addDefault (oas.Info.Title ++ ": ") api := by
  have h0 := (length_buildPreTags (oas.Info.Title ++ ": ") oas).mpr h
  simp [prefixTags, h0]

theorem prefixTags_of_tags (oas : OAS) (api : API) (h : docTags oas ≠ []) :
    prefixTags oas api
      = mergeRename (buildPreTags (oas.Info.Title ++ ": ") oas.Paths) api := by
  have h0 : (buildPreTags (oas.Info.Title ++ ": ") oas.Paths).length ≠ 0 :=
    fun e => h ((length_buildPreTags _ oas).mp e)
  simp [prefixTags, h0]

theorem renameOf_addDefault (pfx : String) (api : API) :
    renameOf (addDefault pfx api) = renameOf api := by
  cases hT : api.Tags <;> simp [renameOf, addDefault, hT]

theorem addOf_addDefault (pfx : String) (api : API) :
    addOf (addDefault pfx api) = addOf api ++ [pfx ++ "default"] := by
  cases hT : api.Tags <;> simp [addOf, addDefault, hT]

theorem renameOf_mergeRename (p : GoMap) (api : API) :
    renameOf (mergeRename p api)
      = p.foldl (fun r kv => mapSet r kv.1 kv.2) (renameOf api) := by
  cases hT : api.Tags <;> simp [renameOf, mergeRename, hT]

theorem addOf_mergeRename (p : GoMap) (api : API) :
    addOf (mergeRename p api) = addOf api := by
  cases hT : api.Tags <;> simp [addOf, mergeRename, hT]

theorem mapGet_renameOf_prefixTags (oas : OAS) (api : API) (k : String) :
    mapGet (renameOf (prefixTags oas api)) k
      = if k ∈ docTags oas then some (oas.Info.Title ++ ": " ++ k)
        else mapGet (renameOf api) k := by
  by_cases h : docTags oas = []
  · rw [prefixTags_of_no_tags oas api h, renameOf_addDefault]
    simp [h]
  · rw [prefixTags_of_tags oas api h, renameOf_mergeRename,
      mapGet_foldl_merge (fun t => oas.Info.Title ++ ": " ++ t) _ _ _
        (fun kv hkv => mem_buildPreTags _ oas kv hkv)]
    simp only [mem_keys_buildPreTags]

theorem mergeRename_absorb (p p' : GoMap) (api : API) (f : String → String)
    (hp : ∀ kv ∈ p, kv.2 = f kv.1) (hp' : ∀ kv ∈ p', kv.2 = f kv.1 ∧ kv.1 ∈ mapKeys p) :
    mergeRename p' (mergeRename p api) = mergeRename p api := by
  have key : ∀ r : GoMap,
      p'.foldl (fun r kv => mapSet r kv.1 kv.2) (p.foldl (fun r kv => mapSet r kv.1 kv.2) r)
        = p.foldl (fun r kv => mapSet r kv.1 kv.2) r := by
    intro r
    apply foldl_merge_eq_self
    intro kv hkv
    rw [mapGet_foldl_merge f p r kv.1 hp, if_pos (hp' kv hkv).2, (hp' kv hkv).1]
  cases hT : api.Tags <;> simp [mergeRename, hT, key]

/-- The result of the step does not depend on the order in which the `range`
statements visit the document: a second document with the same title and
the same set of tags is absorbed by the result of the first. -/
theorem prefixTags_absorb (oas oas' : OAS) (api : API)
    (htitle : oas'.Info.Title = oas.Info.Title)
    (hsame : ∀ k, k ∈ docTags oas' ↔ k ∈ docTags oas) (h : docTags oas ≠ []) :
    prefixTags oas' (prefixTags oas api) = prefixTags oas api := by
  have h' : docTags oas' ≠ [] := by
    obtain ⟨t, ht⟩ := List.exists_mem_of_ne_nil _ h
    exact List.ne_nil_of_mem ((hsame t).mpr ht)
  rw [prefixTags_of_tags oas' _ h', prefixTags_of_tags oas api h, htitle]
  apply mergeRename_absorb _ _ api (fun t => oas.Info.Title ++ ": " ++ t)
    (fun kv hkv => mem_buildPreTags _ oas kv hkv)
  intro kv hkv
  refine ⟨mem_buildPreTags _ oas' kv hkv, ?_⟩
  rw [mem_keys_buildPreTags, ← hsame, ← mem_keys_buildPreTags (oas.Info.Title ++ ": ") oas']
  exact List.mem_map.mpr ⟨kv, hkv, rfl⟩

theorem default_tag_eq (title : String) :
    title ++ ": " ++ "default" = title ++ ": default" := by
  rw [String.append_assoc]
  rfl


/-! ## Lemmas on the run -/

theorem prefixTags_URL (oas : OAS) (api : API) : (prefixTags oas api).URL = api.URL := by
  unfold prefixTags
  simp only []
  split_ifs <;> simp [mergeRename, addDefault]

theorem prefixTags_Paths (oas : OAS) (api : API) : (prefixTags oas api).Paths = api.Paths := by
  unfold prefixTags
  simp only []
  split_ifs <;> simp [mergeRename, addDefault]

theorem fetchOAS_eq_none_iff (w : World) (n : Nat) (url : String) :
    fetchOAS w n url = none ↔ fetchFailed (w.httpGet n url) = true := by
  unfold fetchOAS
  cases w.httpGet n url with
  | getErr => simp [fetchFailed]
  | readErr st => simp [fetchFailed]
  | body st bytes => by_cases h : Ext url = ".yaml" <;> simp [fetchFailed, h]

theorem fetchOAS_of_ok (w : World) (n : Nat) (url : String)
    (h : fetchFailed (w.httpGet n url) = false) :
    fetchOAS w n url = some (docAt w n url) := by
  cases hf : fetchOAS w n url with
  | none =>
    rw [(fetchOAS_eq_none_iff w n url).mp hf] at h
    cases h
  | some d => simp [docAt, hf]

theorem processAPIs_of_ok (w : World) (l : List API) (n : Nat)
    (h : ∀ i a, l[i]? = some a → fetchFailed (w.httpGet (n + i) a.URL) = false) :
    processAPIs w n l = some (prefixAll w n l) := by
  induction l generalizing n with
  | nil => rfl
  | cons api rest ih =>
    have h0 := fetchOAS_of_ok w n api.URL (by simpa using h 0 api (by simp))
    have hrest := ih (n + 1) (fun i a hi => by
      have := h (i + 1) a (by simpa using hi)
      rwa [show n + (i + 1) = n + 1 + i by omega] at this)
    simp [processAPIs, prefixAll, h0, hrest]

theorem processAPIs_of_fail (w : World) (l : List API) (n i : Nat) (a : API)
    (hi : l[i]? = some a) (h : fetchFailed (w.httpGet (n + i) a.URL) = true) :
    processAPIs w n l = none := by
  induction l generalizing n i with
  | nil => simp at hi
  | cons api rest ih =>
    cases i with
    | zero =>
      simp at hi
      subst hi
      have := (fetchOAS_eq_none_iff w n api.URL).mpr (by simpa using h)
      simp [processAPIs, this]
    | succ j =>
      have hrest := ih (n + 1) j (by simpa using hi)
        (by rwa [show n + 1 + j = n + (j + 1) by omega])
      cases hf : fetchOAS w n api.URL <;> simp [processAPIs, hf, hrest]

theorem prefixAll_getElem? (w : World) (l : List API) (n i : Nat) :
    (prefixAll w n l)[i]? = (l[i]?).map (fun a => prefixTags (docAt w (n + i) a.URL) a) := by
  induction l generalizing n i with
  | nil => simp [prefixAll]
  | cons api rest ih =>
    cases i with
    | zero => simp [prefixAll]
    | succ j =>
      simp only [prefixAll, List.getElem?_cons_succ]
      rw [ih (n + 1) j, show n + 1 + j = n + (j + 1) by omega]

theorem prefixAll_length (w : World) (l : List API) (n : Nat) :
    (prefixAll w n l).length = l.length := by
  induction l generalizing n with
  | nil => rfl
  | cons api rest ih => simp [prefixAll, ih]

theorem transform_of_ok (w : World) (config : Config)
    (h : ∀ i a, config.APIs[i]? = some a → fetchFailed (w.httpGet i a.URL) = false) :
    transform w config = some { config with APIs := prefixAll w 0 config.APIs } := by
  have := processAPIs_of_ok w config.APIs 0 (by simpa using h)
  simp [transform, this]

theorem transform_of_fail (w : World) (config : Config) (i : Nat) (a : API)
    (hi : config.APIs[i]? = some a) (h : fetchFailed (w.httpGet i a.URL) = true) :
    transform w config = none := by
  have := processAPIs_of_fail w config.APIs 0 i a hi (by simpa using h)
  simp [transform, this]

theorem prefixed_ne_of_title_ne (t1 t2 tag : String) (h : t1 ≠ t2) :
    t1 ++ ": " ++ tag ≠ t2 ++ ": " ++ tag := by
  intro e
  apply h
  have e' := congrArg String.data e
  simp only [String.data_append] at e'
  exact String.ext (List.append_cancel_right (List.append_cancel_right e'))

/-! ## The claims on the tag-prefixing step -/

/-- C1: when the entry has no prior rename entries and the document has at
least one tag, the rename map after the step has one entry per distinct tag
of the document and nothing else: its keys are pairwise different, and
`(k, v)` is an entry exactly when `k` is a tag of the document and
`v = title ++ ": " ++ k`. -/
theorem prefixTags_rename_of_fresh (oas : OAS) (api : API)
    (hprior : renameOf api = []) (htags : docTags oas ≠ []) :
    (prefixTags oas api).Tags.bind Tag.Rename = some (renameOf (prefixTags oas api))
    ∧ (mapKeys (renameOf (prefixTags oas api))).Nodup
    ∧ (∀ k v, (k, v) ∈ renameOf (prefixTags oas api)
        ↔ (k ∈ docTags oas ∧ v = oas.Info.Title ++ ": " ++ k))
    ∧ (∀ k, mapGet (renameOf (prefixTags oas api)) k
        = if k ∈ docTags oas then some (oas.Info.Title ++ ": " ++ k) else none) := by
  have hget : ∀ k, mapGet (renameOf (prefixTags oas api)) k
      = if k ∈ docTags oas then some (oas.Info.Title ++ ": " ++ k) else none := by
    intro k
    rw [mapGet_renameOf_prefixTags, hprior]
    simp [mapGet]
  have hnodup : (mapKeys (renameOf (prefixTags oas api))).Nodup := by
    rw [prefixTags_of_tags oas api htags, renameOf_mergeRename, hprior]
    exact nodup_foldl_merge _ [] (by simp [mapKeys])
  refine ⟨?_, hnodup, ?_, hget⟩
  · rw [prefixTags_of_tags oas api htags]
    cases hT : api.Tags <;> simp [renameOf, mergeRename, hT]
  · intro k v
    constructor
    · intro hmem
      have h1 := mapGet_of_mem _ k v hnodup hmem
      rw [hget] at h1
      by_cases hk : k ∈ docTags oas
      · rw [if_pos hk] at h1
        exact ⟨hk, (Option.some.inj h1).symm⟩
      · rw [if_neg hk] at h1
        cases h1
    · rintro ⟨hk, hv⟩
      apply mem_of_mapGet
      rw [hget, if_pos hk, hv]

/-- Witness of C1: the tags a, b, a under the title "Pets". -/
theorem prefixTags_rename_of_fresh_witness :
    renameOf plainEntry = [] ∧ docTags petsDoc = ["a", "b", "a"]
    ∧ renameOf (prefixTags petsDoc plainEntry) = [("a", "Pets: a"), ("b", "Pets: b")]
    ∧ (mapKeys (renameOf (prefixTags petsDoc plainEntry))).Nodup
    ∧ mapGet (renameOf (prefixTags petsDoc plainEntry)) "a" = some "Pets: a" :=
  have h := prefixTags_rename_of_fresh petsDoc plainEntry (by decide) (by decide)
  ⟨by decide, by decide, by decide, h.2.1, (h.2.2.2 "a").trans (by decide)⟩

/-- C2: when no operation of the document carries a tag, the step leaves
the entry with a non-nil add-list that is the previous add-list followed by
the one element `title ++ ": default"`; the rename map, the URL and the
path overrides are untouched. -/
theorem prefixTags_add_default (oas : OAS) (api : API) (h : docTags oas = []) :
    (prefixTags oas api).Tags.map Tag.Add
        = some (some (addOf api ++ [oas.Info.Title ++ ": default"]))
    ∧ addOf (prefixTags oas api) = addOf api ++ [oas.Info.Title ++ ": default"]
    ∧ (prefixTags oas api).Tags.bind Tag.Rename = api.Tags.bind Tag.Rename
    ∧ (prefixTags oas api).URL = api.URL
    ∧ (prefixTags oas api).Paths = api.Paths := by
  rw [prefixTags_of_no_tags oas api h, ← default_tag_eq]
  cases hT : api.Tags <;> simp [addOf, addDefault, hT]

/-- Witness of C2: a document with paths but no tags, a document with no
paths at all, and an entry that already has an add-list. -/
theorem prefixTags_add_default_witness :
    docTags ordersDoc = [] ∧ docTags OAS.zero = []
    ∧ addOf (prefixTags ordersDoc editedEntry) = ["y", "Orders: default"]
    ∧ addOf (prefixTags OAS.zero plainEntry) = [": default"] :=
  ⟨by decide, by decide,
    (prefixTags_add_default ordersDoc editedEntry (by decide)).2.1.trans (by decide),
    by decide⟩

/-- C3: a rename entry `(k, v)` of the entry whose key is not a tag of the
document is still there, with the same value, after the step. -/
theorem prefixTags_keeps_other_renames (oas : OAS) (api : API) (k v : String)
    (hprior : mapGet (renameOf api) k = some v) (hk : k ∉ docTags oas) :
    mapGet (renameOf (prefixTags oas api)) k = some v := by
  rw [mapGet_renameOf_prefixTags, if_neg hk, hprior]

/-- Witness of C3: the entry for x survives the tags a and b of "Pets". -/
theorem prefixTags_keeps_other_renames_witness :
    mapGet (renameOf editedEntry) "x" = some "X" ∧ "x" ∉ docTags petsDoc
    ∧ mapGet (renameOf (prefixTags petsDoc editedEntry)) "x" = some "X" :=
  ⟨by decide, by decide,
    prefixTags_keeps_other_renames petsDoc editedEntry "x" "X" (by decide) (by decide)⟩

/-- C4: after the step the entry has a tag-edit block, its rename map or its
add-list is not empty, and a name of the form `title ++ ": " ++ s` is a
value of the rename map or an element of the add-list. -/
theorem prefixTags_leaves_a_tag (oas : OAS) (api : API) :
    (prefixTags oas api).Tags ≠ none
    ∧ (renameOf (prefixTags oas api) ≠ [] ∨ addOf (prefixTags oas api) ≠ [])
    ∧ ∃ s : String,
        (∃ k, mapGet (renameOf (prefixTags oas api)) k = some (oas.Info.Title ++ ": " ++ s))
        ∨ oas.Info.Title ++ ": " ++ s ∈ addOf (prefixTags oas api) := by
  by_cases h : docTags oas = []
  · have hadd := addOf_addDefault (oas.Info.Title ++ ": ") api
    rw [prefixTags_of_no_tags oas api h]
    refine ⟨by simp [addDefault], Or.inr (by rw [hadd]; simp), "default", Or.inr ?_⟩
    rw [hadd]
    simp
  · obtain ⟨t, ht⟩ := List.exists_mem_of_ne_nil _ h
    have hget := mapGet_renameOf_prefixTags oas api t
    rw [if_pos ht] at hget
    refine ⟨?_, Or.inl ?_, t, Or.inl ⟨t, hget⟩⟩
    · rw [prefixTags_of_tags oas api h]
      simp [mergeRename]
    · intro hnil
      rw [hnil] at hget
      simp [mapGet] at hget

/-- C10: the step applied twice with the same document gives the same entry
as the step applied once exactly when the document has a tag; every tag of
the document is then renamed to `title ++ ": " ++ tag`, whatever the entry
said before; for a document without tags the second application appends
`title ++ ": default"` once more. -/
theorem prefixTags_idempotent_iff (oas : OAS) (api : API) :
    (prefixTags oas (prefixTags oas api) = prefixTags oas api ↔ docTags oas ≠ [])
    ∧ (∀ k ∈ docTags oas,
        mapGet (renameOf (prefixTags oas api)) k = some (oas.Info.Title ++ ": " ++ k))
    ∧ (docTags oas = [] →
        addOf (prefixTags oas (prefixTags oas api))
          = addOf api ++ [oas.Info.Title ++ ": default", oas.Info.Title ++ ": default"]) := by
  have hnone : docTags oas = [] →
      addOf (prefixTags oas (prefixTags oas api))
        = addOf api ++ [oas.Info.Title ++ ": default", oas.Info.Title ++ ": default"] := by
    intro h
    rw [prefixTags_of_no_tags oas _ h, prefixTags_of_no_tags oas api h,
      addOf_addDefault, addOf_addDefault, default_tag_eq]
    simp
  refine ⟨⟨?_, ?_⟩, ?_, hnone⟩
  · intro heq h
    have h2 := hnone h
    rw [heq, prefixTags_of_no_tags oas api h, addOf_addDefault] at h2
    have := congrArg List.length h2
    simp at this
  · intro h
    exact prefixTags_absorb oas oas api rfl (fun _ => Iff.rfl) h
  · intro k hk
    rw [mapGet_renameOf_prefixTags, if_pos hk]

/-- Witness of C10: with the tags of "Pets" the second application changes
nothing and the old value of a is overwritten; with the tagless "Orders"
the default tag is added twice. -/
theorem prefixTags_idempotent_iff_witness :
    docTags petsDoc ≠ [] ∧ docTags ordersDoc = []
    ∧ prefixTags petsDoc (prefixTags petsDoc editedEntry) = prefixTags petsDoc editedEntry
    ∧ mapGet (renameOf (prefixTags petsDoc editedEntry)) "a" = some "Pets: a"
    ∧ addOf (prefixTags ordersDoc (prefixTags ordersDoc editedEntry))
        = ["y", "Orders: default", "Orders: default"] :=
  have h := prefixTags_idempotent_iff petsDoc editedEntry
  have h' := prefixTags_idempotent_iff ordersDoc editedEntry
  ⟨by decide, by decide, h.1.mpr (by decide), (h.2.1 "a" (by decide)).trans (by decide),
    (h'.2.2 (by decide)).trans (by decide)⟩

/-! ## The claims on the run -/

/-- C5: when every retrieval succeeds and the documents of two entries have
different titles and both carry the tag `t`, the run returns a configuration
in which the rename map of the first sends `t` to its own title followed by
`": "` and `t`, the rename map of the second does the same with the second
title, and the two names differ. -/
theorem transform_prefixes_per_title (w : World) (config : Config)
    (hall : ∀ i a, config.APIs[i]? = some a → fetchFailed (w.httpGet i a.URL) = false)
    (i j : Nat) (a b : API) (t : String)
    (hi : config.APIs[i]? = some a) (hj : config.APIs[j]? = some b)
    (hti : t ∈ docTags (docAt w i a.URL)) (htj : t ∈ docTags (docAt w j b.URL))
    (htitle : (docAt w i a.URL).Info.Title ≠ (docAt w j b.URL).Info.Title) :
    ∃ config' a' b', transform w config = some config'
      ∧ config'.APIs[i]? = some a' ∧ config'.APIs[j]? = some b'
      ∧ mapGet (renameOf a') t = some ((docAt w i a.URL).Info.Title ++ ": " ++ t)
      ∧ mapGet (renameOf b') t = some ((docAt w j b.URL).Info.Title ++ ": " ++ t)
      ∧ (docAt w i a.URL).Info.Title ++ ": " ++ t ≠ (docAt w j b.URL).Info.Title ++ ": " ++ t := by
  refine ⟨_, prefixTags (docAt w i a.URL) a, prefixTags (docAt w j b.URL) b,
    transform_of_ok w config hall, ?_, ?_, ?_, ?_, prefixed_ne_of_title_ne _ _ t htitle⟩
  · simp [prefixAll_getElem?, hi]
  · simp [prefixAll_getElem?, hj]
  · rw [mapGet_renameOf_prefixTags, if_pos hti]
  · rw [mapGet_renameOf_prefixTags, if_pos htj]

/-- Witness of C5: the titles "Pets" and "Orders" with the tag "status". -/
theorem transform_prefixes_per_title_witness :
    ∃ config' a' b', transform shopWorld shopConfig = some config'
      ∧ config'.APIs[0]? = some a' ∧ config'.APIs[1]? = some b'
      ∧ mapGet (renameOf a') "status" = some "Pets: status"
      ∧ mapGet (renameOf b') "status" = some "Orders: status"
      ∧ "Pets: status" ≠ "Orders: status" :=
  transform_prefixes_per_title shopWorld shopConfig
    (fun i _ _ => by by_cases h : i = 0 <;> simp [shopWorld, fetchFailed, h]) 0 1
    ⟨"http://h/pets.json", none, some [("/pets", "/p")]⟩
    ⟨"http://h/orders.yaml", some ⟨some [("x", "X")], none⟩, none⟩ "status"
    (by decide) (by decide) (by decide) (by decide) (by decide)

/-- C6: when every retrieval succeeds, the loop returns a configuration with
the same swagger and info fields and as many entries as before, and the
entry at every index has the URL and the path overrides of the entry that
was at that index before. -/
theorem transform_keeps_entries (w : World) (config : Config)
    (hall : ∀ i a, config.APIs[i]? = some a → fetchFailed (w.httpGet i a.URL) = false) :
    ∃ config', transform w config = some config'
      ∧ config'.Swagger = config.Swagger ∧ config'.Info = config.Info
      ∧ config'.APIs.length = config.APIs.length
      ∧ ∀ i : Nat, (config'.APIs[i]?).map API.URL = (config.APIs[i]?).map API.URL
          ∧ (config'.APIs[i]?).map API.Paths = (config.APIs[i]?).map API.Paths := by
  refine ⟨_, transform_of_ok w config hall, rfl, rfl, prefixAll_length w _ 0, ?_⟩
  intro i
  simp only [prefixAll_getElem?]
  cases config.APIs[i]? <;> simp [prefixTags_URL, prefixTags_Paths]

/-- Witness of C6: the two entries of `shopConfig` keep their places. -/
theorem transform_keeps_entries_witness :
    ∃ config', transform shopWorld shopConfig = some config'
      ∧ config'.Swagger = "2.0" ∧ config'.Info = ⟨"Shop", "1.0"⟩
      ∧ config'.APIs.length = 2
      ∧ (config'.APIs[0]?).map API.URL = some "http://h/pets.json"
      ∧ (config'.APIs[0]?).map API.Paths = some (some [("/pets", "/p")])
      ∧ (config'.APIs[1]?).map API.URL = some "http://h/orders.yaml"
      ∧ (config'.APIs[1]?).map API.Paths = some none :=
  (transform_keeps_entries shopWorld shopConfig
    (fun i _ _ => by by_cases h : i = 0 <;> simp [shopWorld, fetchFailed, h])).imp
    (fun _ h => ⟨h.1, h.2.1, h.2.2.1, h.2.2.2.1, (h.2.2.2.2 0).1, (h.2.2.2.2 0).2,
      (h.2.2.2.2 1).1, (h.2.2.2.2 1).2⟩)

/-- C7: when `http.Get` or the reading of the body fails for an entry, at
whatever index, the run ends with exit status 1 and makes no call of
`ioutil.WriteFile`; hence a run that writes the output file has retrieved
the document of every entry. -/
theorem main_exits_on_failed_retrieval (w : World) (prog configFilePath : String)
    (config : Config) (hargs : w.args = [prog, configFilePath])
    (hload : readConfig w configFilePath = some config) :
    ((∃ i a, config.APIs[i]? = some a ∧ fetchFailed (w.httpGet i a.URL) = true) →
        (main w).status = 1 ∧ (main w).wrote = none)
    ∧ ((main w).wrote ≠ none →
        ∀ i a, config.APIs[i]? = some a → fetchFailed (w.httpGet i a.URL) = false) := by
  have hfail : (∃ i a, config.APIs[i]? = some a ∧ fetchFailed (w.httpGet i a.URL) = true) →
      (main w).status = 1 ∧ (main w).wrote = none := by
    rintro ⟨i, a, hi, hf⟩
    have ht := transform_of_fail w config i a hi hf
    simp [main, hargs, hload, ht]
  refine ⟨hfail, ?_⟩
  intro hw i a hi
  cases hf : fetchFailed (w.httpGet i a.URL) with
  | false => rfl
  | true => exact absurd (hfail ⟨i, a, hi, hf⟩).2 hw

/-- Witness of C7: the second of two entries is unreachable. -/
theorem main_exits_on_failed_retrieval_witness :
    unreachableWorld.args = ["sccp", "c.json"]
    ∧ readConfig unreachableWorld "c.json" = some shopConfig
    ∧ unreachableWorld.httpGet 1 "http://h/orders.yaml" = GetResult.getErr
    ∧ (main unreachableWorld).status = 1 ∧ (main unreachableWorld).wrote = none :=
  ⟨rfl, by decide, by decide,
    (main_exits_on_failed_retrieval unreachableWorld "sccp" "c.json" shopConfig rfl
      (by decide)).1
      ⟨1, ⟨"http://h/orders.yaml", some ⟨some [("x", "X")], none⟩, none⟩, by decide, by decide⟩⟩

/-- C8, as stated, fails: a run in which every response has status 404, and
a run in which a body is rejected by the decoder, both end with exit status
0 and write the output file. -/
theorem main_ignores_status_and_decoder_error :
    (readConfig notFoundWorld "c.json" = some shopConfig
      ∧ nonSuccess (notFoundWorld.httpGet 0 "http://h/pets.json") = true
      ∧ main notFoundWorld = ⟨0, some ("combined-config.json", "{}")⟩)
    ∧ (readConfig garbledWorld "c.json" = some shopConfig
      ∧ parseFailed garbledWorld "http://h/pets.json"
          (garbledWorld.httpGet 0 "http://h/pets.json") = true
      ∧ main garbledWorld = ⟨0, some ("combined-config.json", "{}")⟩
      ∧ (transform garbledWorld shopConfig).map (fun c => c.APIs.map addOf)
          = some [[": default"], []]) := by
  decide

/-- C8, amended: the fetcher aborts exactly when `http.Get` or the reading of
the body fails, and then the run ends with exit status 1 without a call of
`ioutil.WriteFile`; a response that was read gives the document left by the
decoder that the extension of the URL selects, whatever the status of the
response and whether or not the decoder reported an error. -/
theorem fetchOAS_aborts_on_retrieval_only (w : World) (prog configFilePath : String)
    (config : Config) (hargs : w.args = [prog, configFilePath])
    (hload : readConfig w configFilePath = some config) :
    (∀ n url, fetchOAS w n url = none ↔ fetchFailed (w.httpGet n url) = true)
    ∧ (∀ n url status bytes, w.httpGet n url = GetResult.body status bytes →
        fetchOAS w n url
          = some (if Ext url = ".yaml" then (w.yamlOAS bytes).1 else (w.jsonOAS bytes).1))
    ∧ (∀ i a, config.APIs[i]? = some a → fetchOAS w i a.URL = none →
        main w = ⟨1, none⟩) := by
  refine ⟨fetchOAS_eq_none_iff w, ?_, ?_⟩
  · intro n url status bytes h
    by_cases he : Ext url = ".yaml" <;> simp [fetchOAS, h, he]
  · intro i a hi hf
    have ht := transform_of_fail w config i a hi ((fetchOAS_eq_none_iff w i a.URL).mp hf)
    simp [main, hargs, hload, ht]

/-- Witness of C8, amended: the unreachable second entry aborts the run, and
the rejected body with status 200 is replaced by the zero document. -/
theorem fetchOAS_aborts_on_retrieval_only_witness :
    unreachableWorld.args = ["sccp", "c.json"]
    ∧ readConfig unreachableWorld "c.json" = some shopConfig
    ∧ fetchOAS unreachableWorld 1 "http://h/orders.yaml" = none
    ∧ main unreachableWorld = ⟨1, none⟩ :=
  have h := fetchOAS_aborts_on_retrieval_only unreachableWorld "sccp" "c.json" shopConfig rfl
    (by decide)
  ⟨rfl, by decide, (h.1 1 "http://h/orders.yaml").mpr (by decide),
    h.2.2 1 ⟨"http://h/orders.yaml", some ⟨some [("x", "X")], none⟩, none⟩ (by decide)
      (by decide)⟩

/-- C9: a configuration without entries passes the transform stage unchanged,
and it is this configuration that the run serialises and writes. -/
theorem transform_empty (w : World) (prog configFilePath : String) (config : Config)
    (hargs : w.args = [prog, configFilePath])
    (hload : readConfig w configFilePath = some config) (hempty : config.APIs = []) :
    transform w config = some config ∧ main w = writeConfig w configFilePath config := by
  have ht : transform w config = some config := by
    obtain ⟨sw, info, apis⟩ := config
    simp only at hempty
    subst hempty
    rfl
  exact ⟨ht, by simp [main, hargs, hload, ht]⟩

/-- Witness of C9: the configuration `emptyConfig`. -/
theorem transform_empty_witness :
    emptyWorld.args = ["sccp", "c.json"]
    ∧ readConfig emptyWorld "c.json" = some emptyConfig ∧ emptyConfig.APIs = []
    ∧ transform emptyWorld emptyConfig = some emptyConfig
    ∧ main emptyWorld = writeConfig emptyWorld "c.json" emptyConfig :=
  have h := transform_empty emptyWorld "sccp" "c.json" emptyConfig rfl (by decide) rfl
  ⟨rfl, by decide, rfl, h.1, h.2⟩

end Sccp
